import Mathlib

/-!
A shallow embedding of the `MarkovChainTextPredictor` class from
`next_word_gui.py` (the core of the next-word-prediction repository), together
with theorems checking the natural-language specification against it.

Modelling conventions:
* Python strings are Lean `String`s; tokens are strings.
* `corpus.split()` (whitespace split, empty pieces dropped) is `pySplit`.
* Python `dict`s built by insertion are association lists in insertion order:
  `defaultdict(list)` indexed by context tuples becomes `Index`
  (built with `addFollower`, read with `lookupIndex`, which models
  `dict.get(key, [])` — a read that never inserts);
  `defaultdict(int)` counters become `tally` (the `freq[word] += 1` /
  `transition_counts[(key, next_word)] += 1` pattern).
* Python floats (`precision`, `recall`, `f1_score`, division in stats) are
  modelled as exact rationals `ℚ`; the numeric formulas are identical.
* Wall-clock fields (`training_time`) are not modelled: real time has no
  shallow embedding, and the spec excludes the duration from all laws.
* `self.model.clear()` followed by rebuilding, and the assignments in
  `train`, become a functional update of a `Model` record.
-/

namespace NextWord

/-- The whitespace set of Python's `str.split()` with no arguments:
space, tab, newline, carriage return, vertical tab, form feed. -/
def pyIsSpace (c : Char) : Bool :=
  c = ' ' || c = '\t' || c = '\n' || c = '\r' || c.toNat = 11 || c.toNat = 12

/-- Character-level scan of `str.split()`: `acc` holds the characters of the
token in progress, reversed; a whitespace character closes the token (if any),
and the end of input flushes it. Empty pieces never arise, so runs of
whitespace produce no empty tokens, exactly as in Python. -/
def splitAux : List Char → List Char → List String
  | [], [] => []
  | [], acc => [String.mk acc.reverse]
  | c :: cs, acc =>
    if pyIsSpace c then
      match acc with
      | [] => splitAux cs []
      | _ => String.mk acc.reverse :: splitAux cs []
    else splitAux cs (c :: acc)

/-- `s.split()` in Python: split on runs of whitespace, dropping empty pieces.
(Leading and trailing whitespace contribute nothing, so `s.strip().split()`
equals `s.split()`; hence the `text.strip().split()` in `predict_next` is
also embedded by `pySplit`.) -/
def pySplit (s : String) : List String :=
  splitAux s.toList []

/-- One `counter[k] += 1` step on a `defaultdict(int)` represented as an
association list in insertion order. -/
def bump {α : Type} [DecidableEq α] : List (α × Nat) → α → List (α × Nat)
  | [], k => [(k, 1)]
  | (x, c) :: rest, k =>
    if x = k then (x, c + 1) :: rest else (x, c) :: bump rest k

/-- The counter obtained by running `for a in l: counter[a] += 1` on an
initially empty `defaultdict(int)`. Used for `transition_counts` in `train`
and for `freq` in `predict_next`. -/
def tally {α : Type} [DecidableEq α] (l : List α) : List (α × Nat) :=
  l.foldl bump []

/-- Read a counter: the count stored for `k`, `0` when absent. -/
def getCount {α : Type} [DecidableEq α] : List (α × Nat) → α → Nat
  | [], _ => 0
  | (x, c) :: rest, k => if x = k then c else getCount rest k

/-- A context key: the tuple of the `n-1` tokens preceding a follower. -/
abbrev Ctx := List String

/-- `self.model`: a `defaultdict(list)` from context keys to follower lists,
kept in key-insertion order. -/
abbrev Index := List (Ctx × List String)

/-- `self.model[key].append(next_word)` on a `defaultdict(list)`. -/
def addFollower : Index → Ctx → String → Index
  | [], k, w => [(k, [w])]
  | (x, ws) :: rest, k, w =>
    if x = k then (x, ws ++ [w]) :: rest else (x, ws) :: addFollower rest k w

/-- `self.model.get(key, [])`: read-only lookup, `[]` when the key is absent
(`dict.get` never inserts, unlike `defaultdict.__getitem__`). -/
def lookupIndex : Index → Ctx → List String
  | [], _ => []
  | (x, ws) :: rest, k => if x = k then ws else lookupIndex rest k

/-- The n-gram windows scanned by `train`'s loop
`for i in range(len(tokens) - n + 1)`: for each window start `i`, the pair
`(tuple(tokens[i:i+n-1]), tokens[i+n-1])`. In `ℕ`, `len + 1 - n` equals
Python's `max(0, len - n + 1)`. -/
def windows (tokens : List String) (n : Nat) : List (Ctx × String) :=
  (List.range (tokens.length + 1 - n)).map fun i =>
    ((tokens.drop i).take (n - 1), tokens.getD (i + n - 1) "")

/-- The N-Gram Index built by `train`: every window's follower appended under
its context key. -/
def buildIndex (tokens : List String) (n : Nat) : Index :=
  (windows tokens n).foldl (fun acc kw => addFollower acc kw.1 kw.2) []

/-- `transition_counts`: occurrence counts of the (context, follower) pairs,
built by the same scan as the index. -/
def transitionTally (corpus : String) (n : Nat) :
    List ((Ctx × String) × Nat) :=
  tally (windows (pySplit corpus) n)

/-- The state of a `MarkovChainTextPredictor` instance. `training_time` is
omitted (wall clock, not modelled); all other fields of `__init__` appear. -/
structure Model where
  model : Index
  trained : Bool
  vocab_size : Nat
  unique_transitions : Nat
  total_transitions : Nat
  f1_score : ℚ
  file_size : Nat
  file_name : String
deriving DecidableEq

/-- `MarkovChainTextPredictor.__init__`: the untrained state. -/
def initModel : Model :=
  { model := [], trained := false, vocab_size := 0, unique_transitions := 0,
    total_transitions := 0, f1_score := 0, file_size := 0, file_name := "" }

/-- `MarkovChainTextPredictor.train(corpus, n=2)`: clears the index, splits
the corpus, rebuilds index and transition counts in one scan, and derives
`vocab_size`, `unique_transitions`, `total_transitions` and `f1_score`
(`correct / x if x else 0` is the truthiness test `x != 0` on an int,
and the final `if (...) else 0` the same test on the float `precision +
recall`, which is `recl` here since `recall` is a reserved word in Lean). -/
def train (st : Model) (corpus : String) (n : Nat) : Model :=
  let tokens := pySplit corpus
  let tc := transitionTally corpus n
  let unique := tc.length
  let total := (tc.map Prod.snd).sum
  let correct := (tc.filter fun p => 1 < p.2).length
  let precision : ℚ := if unique = 0 then 0 else (correct : ℚ) / (unique : ℚ)
  let recl : ℚ := if total = 0 then 0 else (correct : ℚ) / (total : ℚ)
  { st with
    model := buildIndex tokens n
    trained := true
    vocab_size := tokens.dedup.length
    unique_transitions := unique
    total_transitions := total
    f1_score :=
      if precision + recl = 0 then 0
      else 2 * (precision * recl) / (precision + recl) }

/-- The sentinel returned by `predict_next` on an untrained model. -/
def notTrainedMsg : String := "⚠️ Please load training data first"

/-- The sentinel returned by `predict_next` when the context has no
recorded followers (the spec's `NoCandidates` condition). -/
def noPredMsg : String := "🤖 No predictions available"

/-- `key = tuple(words[-1:])`: the context key `predict_next` looks up —
always the slice holding just the last token, irrespective of the order
the model was trained with. -/
def predictKey (words : List String) : Ctx :=
  words.drop (words.length - 1)

/-- The comparison realised by Python's
`sorted(freq.items(), key=lambda x: (-x[1], x[0]))`:
`a` precedes `b` iff `a` has the larger count, or equal counts and the
lexicographically smaller word. -/
def rankRel (a b : String × Nat) : Prop :=
  b.2 < a.2 ∨ (a.2 = b.2 ∧ a.1 ≤ b.1)

instance : DecidableRel rankRel := fun a b =>
  inferInstanceAs (Decidable (b.2 < a.2 ∨ (a.2 = b.2 ∧ a.1 ≤ b.1)))

/-- `MarkovChainTextPredictor.predict_next(text, top_k=3)`, with the model
state threaded explicitly. Every step of the Python body either reads
`self` (the `self.trained` test, the `self.model.get` lookup) or works on
locals (`words`, `key`, `candidates`, `freq`, `sorted_words`), so each
branch returns the state it received. -/
def predict_next_st (st : Model) (text : String) (top_k : Nat) :
    Model × List String :=
  if st.trained = false then (st, [notTrainedMsg])
  else
    let words := pySplit text
    if words = [] then (st, [])
    else
      let candidates := lookupIndex st.model (predictKey words)
      if candidates = [] then (st, [noPredMsg])
      else
        let freq := tally candidates
        (st, ((freq.insertionSort rankRel).take top_k).map Prod.fst)

/-- The value `predict_next` returns. -/
def predict_next (st : Model) (text : String) (top_k : Nat := 3) :
    List String :=
  (predict_next_st st text top_k).2

/-- The record `get_stats` returns. `file_size_kb` models the exact value
formatted by `f"{self.file_size/1024:.1f} KB"`, `f1_score` the exact value
formatted by `f"{self.f1_score:.3f}"`, and `compression := none` models the
`"N/A"` branch taken when `unique_transitions` is zero. -/
structure Stats where
  file_name : String
  file_size_kb : ℚ
  vocab_size : Nat
  unique_transitions : Nat
  total_transitions : Nat
  f1_score : ℚ
  compression : Option ℚ
deriving DecidableEq

/-- `MarkovChainTextPredictor.get_stats()`: builds the stats record from the
current fields, with no check of `self.trained`. -/
def get_stats (st : Model) : Stats :=
  { file_name := st.file_name
    file_size_kb := (st.file_size : ℚ) / 1024
    vocab_size := st.vocab_size
    unique_transitions := st.unique_transitions
    total_transitions := st.total_transitions
    f1_score := st.f1_score
    compression :=
      if st.unique_transitions = 0 then none
      else some ((st.vocab_size : ℚ) / (st.unique_transitions : ℚ)) }

/-- The number of distinct (context, follower) pairs of the corpus whose
occurrence count exceeds 1, written as the spec phrases it (distinct pairs,
each tested against its multiplicity in the window scan). -/
def countRepeated (corpus : String) (n : Nat) : Nat :=
  ((windows (pySplit corpus) n).dedup.filter
    fun p => 1 < (windows (pySplit corpus) n).count p).length

/-- The quality score as the spec words it: precision `correct/unique`
(0 if `unique = 0`), recall `correct/total` (0 if `total = 0`), and the
harmonic mean `2·p·r/(p+r)`, or 0 when both `p` and `r` are 0. -/
def specScore (correct unique total : Nat) : ℚ :=
  let p : ℚ := if unique = 0 then 0 else (correct : ℚ) / (unique : ℚ)
  let r : ℚ := if total = 0 then 0 else (correct : ℚ) / (total : ℚ)
  if p = 0 ∧ r = 0 then 0 else 2 * p * r / (p + r)

/-- The corpus of the spec's worked scenario (§8). -/
def theCorpus : String := "the cat sat on the mat the cat ran"

/-- The ranking law of the spec, expressed on the follower multiset `fs`:
`a` ranks strictly before `b` iff `a` has the larger occurrence count, or the
counts are equal and `a` is lexicographically smaller. -/
def ranksBefore (fs : List String) (a b : String) : Prop :=
  fs.count b < fs.count a ∨ (fs.count a = fs.count b ∧ a < b)

instance : IsTotal (String × Nat) rankRel :=
  ⟨fun a b => by
    rcases Nat.lt_trichotomy a.2 b.2 with h | h | h
    · exact Or.inr (Or.inl h)
    · rcases le_total a.1 b.1 with h1 | h1
      · exact Or.inl (Or.inr ⟨h, h1⟩)
      · exact Or.inr (Or.inr ⟨h.symm, h1⟩)
    · exact Or.inl (Or.inl h)⟩

instance : IsTrans (String × Nat) rankRel :=
  ⟨fun a b c hab hbc => by
    rcases hab with h1 | ⟨h1, h1'⟩ <;> rcases hbc with h2 | ⟨h2, h2'⟩
    · exact Or.inl (by omega)
    · exact Or.inl (by omega)
    · exact Or.inl (by omega)
    · exact Or.inr ⟨by omega, h1'.trans h2'⟩⟩

/-! ## Laws of the counter (`defaultdict(int)`) embedding -/

theorem bump_fst_mem {α : Type} [DecidableEq α] (acc : List (α × Nat))
    (k a : α) :
    a ∈ (bump acc k).map Prod.fst ↔ a ∈ acc.map Prod.fst ∨ a = k := by
  induction acc with
  | nil => simp [bump]
  | cons p rest ih =>
    obtain ⟨x, c⟩ := p
    simp only [bump]
    split
    · simp_all
    · simp_all
      tauto

theorem bump_fst_nodup {α : Type} [DecidableEq α] {acc : List (α × Nat)}
    (k : α) (h : (acc.map Prod.fst).Nodup) :
    ((bump acc k).map Prod.fst).Nodup := by
  induction acc with
  | nil => simp [bump]
  | cons p rest ih =>
    obtain ⟨x, c⟩ := p
    simp only [bump]
    split
    · simpa using h
    · simp only [List.map_cons, List.nodup_cons] at h ⊢
      refine ⟨fun hx => ?_, ih h.2⟩
      rcases (bump_fst_mem rest k x).1 hx with hx | hx
      · exact h.1 hx
      · exact absurd hx (by assumption)

theorem getCount_bump {α : Type} [DecidableEq α] (acc : List (α × Nat))
    (k a : α) :
    getCount (bump acc k) a = getCount acc a + if a = k then 1 else 0 := by
  induction acc with
  | nil =>
    by_cases h : a = k
    · subst h
      simp [bump, getCount]
    · have h' : k ≠ a := fun hh => h hh.symm
      simp [bump, getCount, h, h']
  | cons p rest ih =>
    obtain ⟨x, c⟩ := p
    by_cases hxk : x = k
    · subst hxk
      by_cases hax : x = a
      · subst hax
        simp [bump, getCount]
      · have hax' : a ≠ x := fun hh => hax hh.symm
        simp [bump, getCount, hax, hax']
    · by_cases hax : x = a
      · subst hax
        simp [bump, getCount, hxk]
      · simp [bump, getCount, hxk, hax, ih]

theorem bump_sndsum {α : Type} [DecidableEq α] (acc : List (α × Nat))
    (k : α) :
    ((bump acc k).map Prod.snd).sum = ((acc.map Prod.snd).sum) + 1 := by
  induction acc with
  | nil => simp [bump]
  | cons p rest ih =>
    obtain ⟨x, c⟩ := p
    simp only [bump]
    split
    · simp
      omega
    · simp only [List.map_cons, List.sum_cons, ih]
      omega

theorem foldl_bump_fst_mem {α : Type} [DecidableEq α] (l : List α) (a : α) :
    ∀ acc : List (α × Nat),
      a ∈ (l.foldl bump acc).map Prod.fst ↔ a ∈ acc.map Prod.fst ∨ a ∈ l := by
  induction l with
  | nil => simp
  | cons k l ih =>
    intro acc
    rw [List.foldl_cons, ih (bump acc k), bump_fst_mem]
    simp [List.mem_cons]
    tauto

theorem foldl_bump_fst_nodup {α : Type} [DecidableEq α] (l : List α) :
    ∀ acc : List (α × Nat), (acc.map Prod.fst).Nodup →
      ((l.foldl bump acc).map Prod.fst).Nodup := by
  induction l with
  | nil => exact fun acc h => h
  | cons k l ih =>
    intro acc h
    exact ih (bump acc k) (bump_fst_nodup k h)

theorem getCount_foldl_bump {α : Type} [DecidableEq α] (l : List α) (a : α) :
    ∀ acc : List (α × Nat),
      getCount (l.foldl bump acc) a = getCount acc a + l.count a := by
  induction l with
  | nil => simp
  | cons k l ih =>
    intro acc
    rw [List.foldl_cons, ih (bump acc k), getCount_bump]
    by_cases h : a = k
    · subst h
      simp [List.count_cons]
      omega
    · simp [List.count_cons, h]

theorem sndsum_foldl_bump {α : Type} [DecidableEq α] (l : List α) :
    ∀ acc : List (α × Nat),
      ((l.foldl bump acc).map Prod.snd).sum =
        (acc.map Prod.snd).sum + l.length := by
  induction l with
  | nil => simp
  | cons k l ih =>
    intro acc
    rw [List.foldl_cons, ih (bump acc k), bump_sndsum]
    simp
    omega

/-! ## Laws of `tally` (counters built from the empty dict) -/

theorem mem_tally_fst {α : Type} [DecidableEq α] {l : List α} {a : α} :
    a ∈ (tally l).map Prod.fst ↔ a ∈ l := by
  rw [tally, foldl_bump_fst_mem]
  simp

theorem tally_fst_nodup {α : Type} [DecidableEq α] (l : List α) :
    ((tally l).map Prod.fst).Nodup :=
  foldl_bump_fst_nodup l [] (by simp)

theorem getCount_tally {α : Type} [DecidableEq α] (l : List α) (a : α) :
    getCount (tally l) a = l.count a := by
  rw [tally, getCount_foldl_bump]
  simp [getCount]

theorem tally_sndsum {α : Type} [DecidableEq α] (l : List α) :
    ((tally l).map Prod.snd).sum = l.length := by
  rw [tally, sndsum_foldl_bump]
  simp

theorem getCount_eq_snd_of_mem {α : Type} [DecidableEq α]
    {L : List (α × Nat)} {p : α × Nat} (hn : (L.map Prod.fst).Nodup)
    (hp : p ∈ L) : getCount L p.1 = p.2 := by
  induction L with
  | nil => cases hp
  | cons q rest ih =>
    simp only [List.map_cons, List.nodup_cons] at hn
    rcases List.mem_cons.1 hp with h | h
    · subst h
      simp [getCount]
    · have hq : q.1 ≠ p.1 := fun hh => hn.1 (hh ▸ List.mem_map_of_mem Prod.fst h)
      simp only [getCount, if_neg hq]
      exact ih hn.2 h

theorem snd_eq_count_of_mem_tally {α : Type} [DecidableEq α] {l : List α}
    {p : α × Nat} (hp : p ∈ tally l) : p.2 = l.count p.1 := by
  rw [← getCount_eq_snd_of_mem (tally_fst_nodup l) hp, getCount_tally]

theorem tally_fst_perm_dedup {α : Type} [DecidableEq α] (l : List α) :
    ((tally l).map Prod.fst).Perm l.dedup :=
  (List.perm_ext_iff_of_nodup (tally_fst_nodup l) l.nodup_dedup).2 fun a => by
    rw [mem_tally_fst, List.mem_dedup]

theorem tally_filter_repeated {α : Type} [DecidableEq α] (l : List α) :
    ((tally l).filter fun p => 1 < p.2).length =
      (l.dedup.filter fun a => 1 < l.count a).length := by
  have h1 : ((tally l).filter fun p => 1 < p.2) =
      (tally l).filter fun p => 1 < l.count p.1 :=
    List.filter_congr fun p hp => by rw [snd_eq_count_of_mem_tally hp]
  calc ((tally l).filter fun p => 1 < p.2).length
      = (((tally l).filter fun p => 1 < l.count p.1).map Prod.fst).length := by
        rw [h1, List.length_map]
    _ = (((tally l).map Prod.fst).filter fun a => 1 < l.count a).length := by
        rw [List.filter_map]
        rfl
    _ = (l.dedup.filter fun a => 1 < l.count a).length :=
        ((tally_fst_perm_dedup l).filter _).length_eq

/-! ## Laws of the index and the window scan -/

theorem mem_addFollower {acc : Index} {k : Ctx} {w : String}
    {p : Ctx × List String} (hp : p ∈ addFollower acc k w) :
    p.1 ∈ acc.map Prod.fst ∨ p.1 = k := by
  induction acc with
  | nil =>
    simp only [addFollower, List.mem_singleton] at hp
    subst hp
    exact Or.inr rfl
  | cons q rest ih =>
    obtain ⟨x, ws⟩ := q
    simp only [addFollower] at hp
    split at hp
    · rcases List.mem_cons.1 hp with h | h
      · subst h
        exact Or.inl (by simp)
      · exact Or.inl (by simp [List.mem_map_of_mem Prod.fst h])
    · rcases List.mem_cons.1 hp with h | h
      · subst h
        exact Or.inl (by simp)
      · rcases ih h with h' | h'
        · exact Or.inl (by simp [h'])
        · exact Or.inr h'

theorem mem_foldl_addFollower {l : List (Ctx × String)}
    {p : Ctx × List String} :
    ∀ acc : Index,
      p ∈ l.foldl (fun a kw => addFollower a kw.1 kw.2) acc →
      p.1 ∈ acc.map Prod.fst ∨ ∃ kw ∈ l, p.1 = kw.1 := by
  induction l with
  | nil => exact fun acc hp => Or.inl (List.mem_map_of_mem Prod.fst hp)
  | cons kw l ih =>
    intro acc hp
    rcases ih (addFollower acc kw.1 kw.2) hp with h | h
    · rcases List.mem_map.1 h with ⟨q, hq, hq'⟩
      rcases mem_addFollower hq with h' | h'
      · exact Or.inl (hq' ▸ h')
      · exact Or.inr ⟨kw, List.mem_cons_self _ _, hq' ▸ h'⟩
    · rcases h with ⟨kw', hkw', h'⟩
      exact Or.inr ⟨kw', List.mem_cons_of_mem _ hkw', h'⟩

theorem buildIndex_key_mem {tokens : List String} {n : Nat}
    {p : Ctx × List String} (hp : p ∈ buildIndex tokens n) :
    ∃ kw ∈ windows tokens n, p.1 = kw.1 := by
  rcases mem_foldl_addFollower [] hp with h | h
  · simp at h
  · exact h

theorem windows_key_length {tokens : List String} {n : Nat} (hn : 1 ≤ n)
    {kw : Ctx × String} (hkw : kw ∈ windows tokens n) :
    kw.1.length = n - 1 := by
  rcases List.mem_map.1 hkw with ⟨i, hi, hkw'⟩
  rw [List.mem_range] at hi
  subst hkw'
  simp only [List.length_take, List.length_drop]
  omega

theorem windows_length (tokens : List String) (n : Nat) :
    (windows tokens n).length = tokens.length + 1 - n := by
  simp [windows]

theorem windows_nil {tokens : List String} {n : Nat}
    (h : tokens.length < n) : windows tokens n = [] := by
  have h0 : tokens.length + 1 - n = 0 := by omega
  simp [windows, h0]

theorem predictKey_eq_getLast :
    ∀ (ws : List String) (h : ws ≠ []), predictKey ws = [ws.getLast h]
  | [a], _ => rfl
  | a :: b :: tl, _ => by
    have ih := predictKey_eq_getLast (b :: tl) (by simp)
    simp only [predictKey, List.length_cons] at ih ⊢
    rw [List.getLast_cons (by simp)]
    simpa using ih

/-! ## Unfolding `predict_next` on a trained model -/

theorem predict_next_unfold_sentinel (m : Model) (text : String) (k : Nat)
    (htr : m.trained = true) (hws : pySplit text ≠ [])
    (hc : lookupIndex m.model (predictKey (pySplit text)) = []) :
    predict_next m text k = [noPredMsg] := by
  simp [predict_next, predict_next_st, htr, hws, hc]

theorem predict_next_unfold_ranked (m : Model) (text : String) (k : Nat)
    (htr : m.trained = true) (hws : pySplit text ≠ [])
    (hc : lookupIndex m.model (predictKey (pySplit text)) ≠ []) :
    predict_next m text k =
      (((tally (lookupIndex m.model (predictKey (pySplit text)))).insertionSort
          rankRel).take k).map Prod.fst := by
  simp [predict_next, predict_next_st, htr, hws, hc]

/-! ## The claims -/

/-- C10: for every model state and every input, `predict_next` leaves the
entire model state unchanged — the embedding threads the state through every
step of the body, and the only access to `self` is the `trained` test and the
non-inserting `self.model.get` lookup, so the state comes back untouched even
when the context key is absent. -/
theorem predict_next_preserves_state (st : Model) (text : String) (k : Nat) :
    (predict_next_st st text k).1 = st := by
  simp only [predict_next_st]
  split
  · rfl
  · split
    · rfl
    · split
      · rfl
      · rfl

/-- C9: re-training with the same corpus and order rebuilds the identical
index, counts and derived stats (the first step of `train` discards all prior
model state, so the result depends only on `(corpus, n)`; the preserved
`file_name`/`file_size` and the unmodelled wall-clock duration aside). -/
theorem train_idempotent (st : Model) (c : String) (n : Nat) (h : 2 ≤ n) :
    train (train st c n) c n = train st c n := rfl

theorem train_idempotent_witness :
    train (train initModel "a b" 2) "a b" 2 = train initModel "a b" 2 :=
  train_idempotent initModel "a b" 2 (by decide)

/-- C2 (counterexample): on the scenario corpus with `n = 2` the code
produces 7 distinct (context, follower) pairs, not the 6 the claim states —
the pair `cat→ran` is the seventh. -/
theorem scenario_unique_transitions_ne_six :
    (train initModel theCorpus 2).unique_transitions ≠ 6 := by decide

/-- C2 (amended): the scenario values as the code computes them — followers
of context `("the",)` are `[cat, mat, cat]` with counts `{cat: 2, mat: 1}`,
`predict_next("the", top_k=2) = ["cat", "mat"]`, `vocab_size = 6`,
`total_transitions = 8`, and `unique_transitions = 7`. -/
theorem scenario_corpus_values :
    lookupIndex (train initModel theCorpus 2).model ["the"] =
        ["cat", "mat", "cat"] ∧
      (["cat", "mat", "cat"] : List String).count "cat" = 2 ∧
      (["cat", "mat", "cat"] : List String).count "mat" = 1 ∧
      predict_next (train initModel theCorpus 2) "the" 2 = ["cat", "mat"] ∧
      (train initModel theCorpus 2).vocab_size = 6 ∧
      (train initModel theCorpus 2).total_transitions = 8 ∧
      (train initModel theCorpus 2).unique_transitions = 7 := by decide

/-- C3 (counterexample): train on `"a b c"` with `n = 3`. The context
`("a", "b")` — the last `n-1 = 2` tokens of the prefix `"a b"` — is in the
index with the non-empty follower list `["c"]`, yet `predict_next` returns
the no-predictions sentinel: its lookup key `tuple(words[-1:])` is `("b",)`,
not the last `n-1` tokens, so it does not match the trained key shape. -/
theorem predict_ignores_higher_order :
    lookupIndex (train initModel "a b c" 3).model ["a", "b"] = ["c"] ∧
      predict_next (train initModel "a b c" 3) "a b" 3 = [noPredMsg] := by
  decide

/-- C3 (amended): `predict_next` always derives its lookup key from the
single last token of the prefix, which matches the key shape built during
training exactly when `n = 2`: every key of a model trained with `n = 2`
has length 1. -/
theorem predict_key_is_last_token :
    (∀ (ws : List String) (h : ws ≠ []), predictKey ws = [ws.getLast h]) ∧
      ∀ (st : Model) (c : String) (p : Ctx × List String),
        p ∈ (train st c 2).model → p.1.length = 1 := by
  constructor
  · exact predictKey_eq_getLast
  · intro st c p hp
    have hp' : p ∈ buildIndex (pySplit c) 2 := hp
    rcases buildIndex_key_mem hp' with ⟨kw, hkw, he⟩
    rw [he, windows_key_length (by omega) hkw]

theorem predict_key_is_last_token_witness :
    predictKey ["a", "b"] = ["b"] ∧
      ((["the"], ["cat", "mat", "cat"]) : Ctx × List String).1.length = 1 := by
  constructor
  · have h := predict_key_is_last_token.1 ["a", "b"] (by decide)
    rw [h]
    rfl
  · exact predict_key_is_last_token.2 initModel theCorpus
      (["the"], ["cat", "mat", "cat"]) (by decide)

/-- C8: a corpus with fewer than `n` tokens trains without error into an
empty index and an empty transition count table (the window scan
`range(len(tokens) - n + 1)` is empty). -/
theorem short_corpus_empty_index (st : Model) (c : String) (n : Nat)
    (h2 : 2 ≤ n) (hlt : (pySplit c).length < n) :
    (train st c n).model = [] ∧ transitionTally c n = [] := by
  have hw : windows (pySplit c) n = [] := windows_nil hlt
  constructor
  · show buildIndex (pySplit c) n = []
    rw [buildIndex, hw]
    rfl
  · rw [transitionTally, hw]
    rfl

theorem short_corpus_empty_index_witness :
    (train initModel "hi" 3).model = [] ∧ transitionTally "hi" 3 = [] :=
  short_corpus_empty_index initModel "hi" 3 (by decide) (by decide)

/-- C4: the sum of all entries of the transition count table equals
`total_transitions`, and both equal `max(0, token_count - n + 1)`. -/
theorem total_transitions_eq_window_count (st : Model) (c : String) (n : Nat)
    (h : 2 ≤ n) :
    ((transitionTally c n).map Prod.snd).sum =
        (train st c n).total_transitions ∧
      ((train st c n).total_transitions : ℤ) =
        max 0 (((pySplit c).length : ℤ) - (n : ℤ) + 1) := by
  have h1 : (train st c n).total_transitions =
      ((transitionTally c n).map Prod.snd).sum := rfl
  have h2 : ((transitionTally c n).map Prod.snd).sum =
      (pySplit c).length + 1 - n := by
    rw [transitionTally, tally_sndsum, windows_length]
  refine ⟨h1.symm, ?_⟩
  rw [h1, h2]
  omega

theorem total_transitions_eq_window_count_witness :
    ((transitionTally theCorpus 2).map Prod.snd).sum =
        (train initModel theCorpus 2).total_transitions ∧
      ((train initModel theCorpus 2).total_transitions : ℤ) =
        max 0 (((pySplit theCorpus).length : ℤ) - (2 : ℤ) + 1) :=
  total_transitions_eq_window_count initModel theCorpus 2 (by decide)

theorem count_default_beq {α : Type} [DecidableEq α] [BEq α] [LawfulBEq α]
    (a : α) (l : List α) :
    l.count a = @List.count α instBEqOfDecidableEq a l := by
  show l.countP (fun b => b == a) =
    l.countP (fun b => @BEq.beq α instBEqOfDecidableEq b a)
  apply List.countP_congr
  intro x hx
  show ((x == a) = true) ↔ (decide (x = a) = true)
  simp

theorem score_guard_eq (p r : ℚ) (hp : 0 ≤ p) (hr : 0 ≤ r) :
    (if p + r = 0 then (0 : ℚ) else 2 * (p * r) / (p + r)) =
      (if p = 0 ∧ r = 0 then (0 : ℚ) else 2 * p * r / (p + r)) := by
  by_cases hc : p = 0 ∧ r = 0
  · rcases hc with ⟨h1, h2⟩
    simp [h1, h2]
  · have hc' : p + r ≠ 0 := fun hh =>
      hc ((add_eq_zero_iff_of_nonneg hp hr).1 hh)
    rw [if_neg hc', if_neg hc, mul_assoc]

/-- C5: the quality score the code stores equals the spec's harmonic-mean
formula, with `correct` the number of distinct (context, follower) pairs of
multiplicity above 1, and with the code's truthiness guard on
`precision + recall` equal to the spec's "0 when both are 0" (both are
quotients of naturals, hence non-negative). -/
theorem f1_matches_spec_score (st : Model) (c : String) (n : Nat)
    (h : 2 ≤ n) :
    (train st c n).f1_score =
      specScore (countRepeated c n) (train st c n).unique_transitions
        (train st c n).total_transitions := by
  have hc : countRepeated c n =
      ((transitionTally c n).filter fun p => 1 < p.2).length := by
    unfold countRepeated transitionTally
    rw [tally_filter_repeated (windows (pySplit c) n)]
    congr 1
    apply List.filter_congr
    intro p hp
    rw [count_default_beq]
  have key : ∀ k u t : Nat,
      (if ((if u = 0 then (0 : ℚ) else (k : ℚ) / (u : ℚ)) +
            (if t = 0 then (0 : ℚ) else (k : ℚ) / (t : ℚ))) = 0 then (0 : ℚ)
       else 2 * ((if u = 0 then (0 : ℚ) else (k : ℚ) / (u : ℚ)) *
            (if t = 0 then (0 : ℚ) else (k : ℚ) / (t : ℚ))) /
          ((if u = 0 then (0 : ℚ) else (k : ℚ) / (u : ℚ)) +
            (if t = 0 then (0 : ℚ) else (k : ℚ) / (t : ℚ)))) =
        specScore k u t := by
    intro k u t
    have hp : (0 : ℚ) ≤ if u = 0 then (0 : ℚ) else (k : ℚ) / (u : ℚ) := by
      split
      · exact le_refl 0
      · exact div_nonneg (Nat.cast_nonneg k) (Nat.cast_nonneg u)
    have hr : (0 : ℚ) ≤ if t = 0 then (0 : ℚ) else (k : ℚ) / (t : ℚ) := by
      split
      · exact le_refl 0
      · exact div_nonneg (Nat.cast_nonneg k) (Nat.cast_nonneg t)
    exact score_guard_eq _ _ hp hr
  rw [hc]
  exact key _ _ _

theorem f1_matches_spec_score_witness :
    (train initModel theCorpus 2).f1_score =
      specScore (countRepeated theCorpus 2)
        (train initModel theCorpus 2).unique_transitions
        (train initModel theCorpus 2).total_transitions :=
  f1_matches_spec_score initModel theCorpus 2 (by decide)

/-- C6 (counterexample): after training on the empty corpus, a prefix that
tokenizes to zero tokens makes `predict_next` return the empty list — the
spec's `EmptyInput` result — not the `NoCandidates` sentinel, so "every
predict_next call returns NoCandidates" fails at the empty prefix. -/
theorem empty_prefix_not_noCandidates :
    predict_next (train initModel "" 2) "" 3 = [] ∧
      ([] : List String) ≠ [noPredMsg] := by decide

/-- C6 (amended): training on `""` succeeds, leaves a trained model with
`vocab_size = 0` and an empty index, and every `predict_next` call whose
prefix tokenizes to at least one token returns the `NoCandidates` sentinel;
a prefix with no tokens returns the empty list instead. -/
theorem empty_corpus_training :
    (train initModel "" 2).trained = true ∧
      (train initModel "" 2).vocab_size = 0 ∧
      (train initModel "" 2).model = [] ∧
      ∀ (text : String) (k : Nat), pySplit text ≠ [] →
        predict_next (train initModel "" 2) text k = [noPredMsg] := by
  refine ⟨by decide, by decide, by decide, fun text k h => ?_⟩
  refine predict_next_unfold_sentinel _ _ _ (by decide) h ?_
  have hm : (train initModel "" 2).model = [] := by decide
  rw [hm]
  rfl

theorem empty_corpus_training_witness :
    (train initModel "" 2).trained = true ∧
      predict_next (train initModel "" 2) "x" 5 = [noPredMsg] :=
  ⟨empty_corpus_training.1, empty_corpus_training.2.2.2 "x" 5 (by decide)⟩

/-- C7 (counterexample): `get_stats` performs no trained check — called on
the untrained initial model it returns an ordinary stats record, literally
equal to the record of a model trained on the empty corpus, so it is not a
value distinguishable from normal results (only the `trained` flag, which
`get_stats` does not expose, differs). -/
theorem get_stats_untrained_indistinguishable :
    get_stats initModel = get_stats (train initModel "" 2) ∧
      initModel.trained = false ∧ (train initModel "" 2).trained = true := by
  refine ⟨?_, rfl, by decide⟩
  have h1 : transitionTally "" 2 = [] := rfl
  have hps : pySplit "" = [] := rfl
  have hbi : buildIndex [] 2 = [] := rfl
  have hM : train initModel "" 2 = { initModel with trained := true } := by
    simp [train, h1, hps, hbi, initModel, Model.mk.injEq]
  rw [hM]
  rfl

/-- C7 (amended): a stats request before any `train` call returns an
ordinary all-default stats record (vocabulary 0, no transitions, score 0,
compression not applicable); the untrained state is observable only through
the `trained` flag, which the presentation layer checks before asking for
stats. -/
theorem get_stats_untrained_defaults :
    get_stats initModel =
      { file_name := "", file_size_kb := 0, vocab_size := 0,
        unique_transitions := 0, total_transitions := 0, f1_score := 0,
        compression := none } ∧ initModel.trained = false := by
  constructor
  · simp [get_stats, initModel]
  · rfl

/-- C1: on a trained model, when the looked-up context is present with a
non-empty follower list `fs` and `top_k ≥ 1`, `predict_next` returns the
first `top_k` entries of the list `L` of distinct followers of that context
(`L` a permutation of `fs.dedup`) ordered by strictly descending occurrence
count with ties broken by ascending lexicographic order (`ranksBefore fs`
holds pairwise along `L`); all distinct followers are returned when fewer
than `top_k` exist, since then `L.take top_k = L`. -/
theorem predict_next_ranks_followers (m : Model) (text : String)
    (top_k : Nat) (fs : List String)
    (htr : m.trained = true) (hws : pySplit text ≠ [])
    (hfs : lookupIndex m.model (predictKey (pySplit text)) = fs)
    (hne : fs ≠ []) (hk : 1 ≤ top_k) :
    ∃ L : List String, L.Perm fs.dedup ∧ L.Pairwise (ranksBefore fs) ∧
      predict_next m text top_k = L.take top_k := by
  have hc : lookupIndex m.model (predictKey (pySplit text)) ≠ [] := by
    rw [hfs]; exact hne
  have hout := predict_next_unfold_ranked m text top_k htr hws hc
  rw [hfs] at hout
  refine ⟨((tally fs).insertionSort rankRel).map Prod.fst, ?_, ?_, ?_⟩
  · exact ((List.perm_insertionSort rankRel (tally fs)).map Prod.fst).trans
      (tally_fst_perm_dedup fs)
  · have hsorted : ((tally fs).insertionSort rankRel).Pairwise rankRel :=
      List.sorted_insertionSort rankRel (tally fs)
    have hnodup : (((tally fs).insertionSort rankRel).map Prod.fst).Nodup :=
      (((List.perm_insertionSort rankRel (tally fs)).map
        Prod.fst).nodup_iff).2 (tally_fst_nodup fs)
    have hne' : ((tally fs).insertionSort rankRel).Pairwise
        fun p q => p.1 ≠ q.1 := List.pairwise_map.1 hnodup
    have hcnt : ∀ p ∈ (tally fs).insertionSort rankRel,
        p.2 = fs.count p.1 := fun p hp =>
      snd_eq_count_of_mem_tally (by simpa using hp)
    have hstrict : ((tally fs).insertionSort rankRel).Pairwise
        fun p q => ranksBefore fs p.1 q.1 := by
      refine (hsorted.and hne').imp_of_mem ?_
      intro p q hp hq hpq
      have hp2 := hcnt p hp
      have hq2 := hcnt q hq
      rcases hpq.1 with hlt | ⟨he, hle⟩
      · exact Or.inl (by rw [← hp2, ← hq2]; exact hlt)
      · exact Or.inr ⟨by rw [← hp2, ← hq2, he],
          lt_of_le_of_ne hle hpq.2⟩
    exact List.pairwise_map.2 hstrict
  · rw [hout]
    exact List.map_take Prod.fst _ _

theorem predict_next_ranks_followers_witness :
    ∃ L : List String,
      L.Perm (["cat", "mat", "cat"] : List String).dedup ∧
        L.Pairwise (ranksBefore ["cat", "mat", "cat"]) ∧
        predict_next (train initModel theCorpus 2) "the" 2 = L.take 2 :=
  predict_next_ranks_followers (train initModel theCorpus 2) "the" 2
    ["cat", "mat", "cat"] (by decide) (by decide) (by decide) (by decide)
    (by decide)

end NextWord
